import Mathlib

/-!
Verification of the capture→frame→classify→segment→dispatch pipeline of
`src/audio/stt.py` (class `STTService`).  Each Python construct is embedded
shallowly: bytes become `List Nat`, the VAD is an abstract classifier
function, the segment state machine of `listen_infinite` becomes an explicit
step function on a state record, and the HTTP layer of `transcribe_chunk`
becomes a datatype enumerating the possible endpoint outcomes.
-/

namespace STT

/-! ## Segment state machine (`listen_infinite`, lines 101-129)

The loop keeps `speech_buffer` (a Python list of frames), `num_silent_frames`
and `in_speech`.  Frames are opaque to this layer (the code only appends them
and joins them at finalization), so the machine is parametric in the frame
type `α`; the external `self.vad.is_speech(frame, rate)` call is an abstract
classifier `vad : α → Bool`. -/

structure SegState (α : Type) where
  speech_buffer : List α
  num_silent_frames : Nat
  in_speech : Bool
deriving DecidableEq, Repr

/-- Initial state of `listen_infinite`: `speech_buffer = []`,
`num_silent_frames = 0`, `in_speech = False`. -/
def initSegState {α : Type} : SegState α := ⟨[], 0, false⟩

/-- One iteration of the frame-classification body: mirrors the
`if is_speech: ... else: ...` block.  On finalization the emitted segment is
the whole `speech_buffer` (the code joins it and calls `transcribe_chunk`);
`F` is `self.silence_frames`. -/
def segStep {α : Type} (F : Nat) (vad : α → Bool) (st : SegState α) (frame : α) :
    SegState α × Option (List α) :=
  if vad frame then
    (⟨st.speech_buffer ++ [frame], 0, true⟩, none)
  else if st.in_speech then
    (if st.num_silent_frames + 1 ≥ F then
      (⟨[], 0, false⟩, some (st.speech_buffer ++ [frame]))
    else
      (⟨st.speech_buffer ++ [frame], st.num_silent_frames + 1, true⟩, none))
  else
    (st, none)

/-- Run the machine over a list of frames, collecting every emitted segment
in order. -/
def runSeg {α : Type} (F : Nat) (vad : α → Bool) : SegState α → List α → SegState α × List (List α)
  | st, [] => (st, [])
  | st, frame :: rest =>
    ((runSeg F vad (segStep F vad st frame).1 rest).1,
     (segStep F vad st frame).2.toList ++ (runSeg F vad (segStep F vad st frame).1 rest).2)

/-- Number of consecutive silence-classified frames at the tail of a buffer. -/
def trailingSilence {α : Type} (vad : α → Bool) (buf : List α) : Nat :=
  (buf.reverse.takeWhile (fun f => !(vad f))).length

theorem segStep_speech {α : Type} (F : Nat) (vad : α → Bool) (st : SegState α) (f : α)
    (h : vad f = true) :
    segStep F vad st f = (⟨st.speech_buffer ++ [f], 0, true⟩, none) := by
  simp [segStep, h]

theorem segStep_silence_idle {α : Type} (F : Nat) (vad : α → Bool) (st : SegState α) (f : α)
    (h : vad f = false) (hst : st.in_speech = false) :
    segStep F vad st f = (st, none) := by
  simp [segStep, h, hst]

theorem runSeg_append {α : Type} (F : Nat) (vad : α → Bool) (st : SegState α)
    (xs ys : List α) :
    runSeg F vad st (xs ++ ys) =
      ((runSeg F vad (runSeg F vad st xs).1 ys).1,
       (runSeg F vad st xs).2 ++ (runSeg F vad (runSeg F vad st xs).1 ys).2) := by
  induction xs generalizing st with
  | nil => simp [runSeg]
  | cons x xs ih => simp [runSeg, ih]

/-- A run of frames all classified silence, starting outside speech, is
discarded: the state is unchanged and nothing is emitted. -/
theorem runSeg_silence_idle {α : Type} (F : Nat) (vad : α → Bool) (st : SegState α)
    (fs : List α) (hfs : ∀ f ∈ fs, vad f = false) (hst : st.in_speech = false) :
    runSeg F vad st fs = (st, []) := by
  induction fs with
  | nil => simp [runSeg]
  | cons f fs ih =>
    have hf : vad f = false := hfs f (by simp)
    simp only [runSeg, segStep_silence_idle F vad st f hf hst]
    simp [ih (fun g hg => hfs g (by simp [hg]))]

/-- A nonempty run of speech-classified frames is appended whole to the
buffer, resets the silence counter, enters speech, and emits nothing. -/
theorem runSeg_speech_run {α : Type} (F : Nat) (vad : α → Bool) (st : SegState α)
    (fs : List α) (hfs : ∀ f ∈ fs, vad f = true) (hne : fs ≠ []) :
    runSeg F vad st fs = (⟨st.speech_buffer ++ fs, 0, true⟩, []) := by
  induction fs generalizing st with
  | nil => exact absurd rfl hne
  | cons f fs ih =>
    have hf : vad f = true := hfs f (by simp)
    simp only [runSeg, segStep_speech F vad st f hf]
    cases fs with
    | nil => simp [runSeg]
    | cons g gs =>
      rw [ih ⟨st.speech_buffer ++ [f], 0, true⟩ (fun g hg => hfs g (by simp [hg]))
        (by simp)]
      simp

/-- A silence run too short to reach the threshold is absorbed: every frame
is buffered, the counter advances by the run length, speech continues, and
nothing is emitted. -/
theorem runSeg_silence_below {α : Type} (F : Nat) (vad : α → Bool) (st : SegState α)
    (fs : List α) (hfs : ∀ f ∈ fs, vad f = false) (hst : st.in_speech = true)
    (hlt : st.num_silent_frames + fs.length < F) :
    runSeg F vad st fs =
      (⟨st.speech_buffer ++ fs, st.num_silent_frames + fs.length, true⟩, []) := by
  induction fs generalizing st with
  | nil =>
    obtain ⟨b, n, s⟩ := st
    simp_all [runSeg]
  | cons f fs ih =>
    have hf : vad f = false := hfs f (by simp)
    have hnotge : ¬ st.num_silent_frames + 1 ≥ F := by
      simp only [List.length_cons] at hlt; omega
    simp only [runSeg, segStep, hf, hst, hnotge]
    simp only [Bool.false_eq_true, if_false, if_true, if_neg hnotge]
    rw [ih ⟨st.speech_buffer ++ [f], st.num_silent_frames + 1, true⟩
      (fun g hg => hfs g (by simp [hg])) rfl
      (by show st.num_silent_frames + 1 + fs.length < F
          simp only [List.length_cons] at hlt; omega)]
    simp [List.length_cons]
    omega

/-- A silence run that exactly reaches the threshold finalizes: the buffer
plus the whole run is emitted as one segment and the machine resets to
`initSegState`. -/
theorem runSeg_silence_drain {α : Type} (F : Nat) (vad : α → Bool) (st : SegState α)
    (fs : List α) (hfs : ∀ f ∈ fs, vad f = false) (hst : st.in_speech = true)
    (hc : st.num_silent_frames < F) (heq : st.num_silent_frames + fs.length = F) :
    runSeg F vad st fs = (initSegState, [st.speech_buffer ++ fs]) := by
  induction fs generalizing st with
  | nil => simp at heq; omega
  | cons f fs ih =>
    have hf : vad f = false := hfs f (by simp)
    by_cases hge : st.num_silent_frames + 1 ≥ F
    · have hfs0 : fs = [] := by
        have : fs.length = 0 := by simp at heq; omega
        exact List.length_eq_zero.mp this
      subst hfs0
      simp only [runSeg, segStep, hf, hst, if_pos hge]
      simp [runSeg, initSegState]
    · simp only [runSeg, segStep, hf, hst, if_neg hge]
      simp only [Bool.false_eq_true, if_false, if_true]
      rw [ih ⟨st.speech_buffer ++ [f], st.num_silent_frames + 1, true⟩
        (fun g hg => hfs g (by simp [hg])) rfl
        (by show st.num_silent_frames + 1 < F; omega)
        (by show st.num_silent_frames + 1 + fs.length = F
            simp only [List.length_cons] at heq; omega)]
      simp

/-- Claim C1: for every `silence_frames ≥ 1`, feeding the segment machine
from Idle the classified sequence `[silence]×2, [speech]×4,
[silence]×silence_frames` emits exactly one segment, whose content is the 4
speech frames followed by all trailing silence frames in arrival order; the
2 leading silence frames are not in it, and the machine ends in Idle with an
empty buffer. -/
theorem C1_segment_basic {α : Type} (vad : α → Bool) (F : Nat) (hF : 1 ≤ F)
    (u1 u2 s1 s2 s3 s4 : α) (ts : List α)
    (hu1 : vad u1 = false) (hu2 : vad u2 = false)
    (hs1 : vad s1 = true) (hs2 : vad s2 = true)
    (hs3 : vad s3 = true) (hs4 : vad s4 = true)
    (hts : ∀ t ∈ ts, vad t = false) (htlen : ts.length = F) :
    runSeg F vad initSegState ([u1, u2, s1, s2, s3, s4] ++ ts) =
      (initSegState, [[s1, s2, s3, s4] ++ ts]) := by
  have h1 : runSeg F vad (initSegState (α := α)) [u1, u2] = (initSegState, []) :=
    runSeg_silence_idle F vad initSegState [u1, u2]
      (by intro f hf; simp at hf; rcases hf with rfl | rfl <;> assumption) rfl
  have h2 : runSeg F vad (initSegState (α := α)) [s1, s2, s3, s4] =
      (⟨[s1, s2, s3, s4], 0, true⟩, []) := by
    have := runSeg_speech_run F vad (initSegState (α := α)) [s1, s2, s3, s4]
      (by intro f hf; simp at hf; rcases hf with rfl | rfl | rfl | rfl <;> assumption) (by simp)
    simpa [initSegState] using this
  have h3 : runSeg F vad (⟨[s1, s2, s3, s4], 0, true⟩ : SegState α) ts =
      (initSegState, [[s1, s2, s3, s4] ++ ts]) := by
    have := runSeg_silence_drain F vad (⟨[s1, s2, s3, s4], 0, true⟩ : SegState α) ts
      hts rfl (by simpa using hF) (by simpa using htlen)
    simpa using this
  have hsplit : [u1, u2, s1, s2, s3, s4] ++ ts = [u1, u2] ++ ([s1, s2, s3, s4] ++ ts) := by
    simp
  rw [hsplit, runSeg_append, h1, runSeg_append, h2, h3]
  simp

theorem C1_segment_basic_witness :
    1 ≤ 1 ∧
    runSeg 1 (fun n => decide (10 ≤ n)) initSegState ([0, 1, 10, 11, 12, 13] ++ [2]) =
      (initSegState, [[10, 11, 12, 13] ++ [2]]) :=
  ⟨by decide,
   C1_segment_basic (fun n => decide (10 ≤ n)) 1 (by decide) 0 1 10 11 12 13 [2]
     (by decide) (by decide) (by decide) (by decide) (by decide) (by decide)
     (by decide) rfl⟩

/-- Claim C2: for every `silence_frames ≥ 2`, the classified sequence
`[speech]×3, [silence]×(silence_frames−1), [speech]×2,
[silence]×silence_frames` from Idle emits exactly one segment containing all
frames in arrival order: the sub-threshold silence run neither finalizes nor
discards buffered speech, and its frames remain in the segment. -/
theorem C2_segment_subthreshold {α : Type} (vad : α → Bool) (F : Nat) (hF : 2 ≤ F)
    (a1 a2 a3 b1 b2 : α) (ts1 ts2 : List α)
    (ha1 : vad a1 = true) (ha2 : vad a2 = true) (ha3 : vad a3 = true)
    (hb1 : vad b1 = true) (hb2 : vad b2 = true)
    (hts1 : ∀ t ∈ ts1, vad t = false) (hts2 : ∀ t ∈ ts2, vad t = false)
    (hlen1 : ts1.length = F - 1) (hlen2 : ts2.length = F) :
    runSeg F vad initSegState ([a1, a2, a3] ++ ts1 ++ [b1, b2] ++ ts2) =
      (initSegState, [[a1, a2, a3] ++ ts1 ++ [b1, b2] ++ ts2]) := by
  have h1 : runSeg F vad (initSegState (α := α)) [a1, a2, a3] =
      (⟨[a1, a2, a3], 0, true⟩, []) := by
    have := runSeg_speech_run F vad (initSegState (α := α)) [a1, a2, a3]
      (by intro f hf; simp at hf; rcases hf with rfl | rfl | rfl <;> assumption) (by simp)
    simpa [initSegState] using this
  have h2 : runSeg F vad (⟨[a1, a2, a3], 0, true⟩ : SegState α) ts1 =
      (⟨[a1, a2, a3] ++ ts1, ts1.length, true⟩, []) := by
    have := runSeg_silence_below F vad (⟨[a1, a2, a3], 0, true⟩ : SegState α) ts1
      hts1 rfl (by simp; omega)
    simpa using this
  have h3 : runSeg F vad (⟨[a1, a2, a3] ++ ts1, ts1.length, true⟩ : SegState α) [b1, b2] =
      (⟨[a1, a2, a3] ++ ts1 ++ [b1, b2], 0, true⟩, []) := by
    have := runSeg_speech_run F vad (⟨[a1, a2, a3] ++ ts1, ts1.length, true⟩ : SegState α)
      [b1, b2] (by intro f hf; simp at hf; rcases hf with rfl | rfl <;> assumption) (by simp)
    simpa using this
  have h4 : runSeg F vad (⟨[a1, a2, a3] ++ ts1 ++ [b1, b2], 0, true⟩ : SegState α) ts2 =
      (initSegState, [[a1, a2, a3] ++ ts1 ++ [b1, b2] ++ ts2]) := by
    have := runSeg_silence_drain F vad
      (⟨[a1, a2, a3] ++ ts1 ++ [b1, b2], 0, true⟩ : SegState α) ts2
      hts2 rfl (by simpa using by omega) (by simpa using hlen2)
    simpa using this
  have hsplit : [a1, a2, a3] ++ ts1 ++ [b1, b2] ++ ts2 =
      [a1, a2, a3] ++ (ts1 ++ ([b1, b2] ++ ts2)) := by simp
  rw [hsplit, runSeg_append, h1, runSeg_append, h2, runSeg_append, h3, h4]
  simp

theorem C2_segment_subthreshold_witness :
    2 ≤ 2 ∧
    runSeg 2 (fun n => decide (10 ≤ n)) initSegState
        ([10, 11, 12] ++ [0] ++ [13, 14] ++ [1, 2]) =
      (initSegState, [[10, 11, 12] ++ [0] ++ [13, 14] ++ [1, 2]]) :=
  ⟨by decide,
   C2_segment_subthreshold (fun n => decide (10 ≤ n)) 2 (by decide) 10 11 12 13 14
     [0] [1, 2] (by decide) (by decide) (by decide) (by decide) (by decide)
     (by decide) (by decide) rfl rfl⟩

/-! ## Frame assembler (`listen_infinite`, lines 93-99)

`leftover_bytes += data` followed by
`while len(leftover_bytes) >= self.frame_bytes: slice off a frame`.
Bytes are `Nat`s (0..255 in practice; the loop never inspects values).
The slicing loop is written with fuel equal to the buffer length: since each
iteration removes `frame_bytes ≥ 1` bytes, that fuel is never exhausted
before the loop guard fails, so for `0 < frame_bytes` the model is exact.
(For `frame_bytes = 0` the Python loop would never terminate; every claim
about the assembler assumes a valid, hence positive, frame size.) -/

def drainAux (fb : Nat) : Nat → List Nat → List (List Nat) × List Nat
  | 0, buf => ([], buf)
  | fuel + 1, buf =>
    if fb ≤ buf.length then
      ((buf.take fb) :: (drainAux fb fuel (buf.drop fb)).1,
       (drainAux fb fuel (buf.drop fb)).2)
    else
      ([], buf)

/-- The inner `while` loop: emit maximal `frame_bytes`-sized prefixes,
return `(frames, new leftover)`. -/
def drainFrames (fb : Nat) (buf : List Nat) : List (List Nat) × List Nat :=
  drainAux fb buf.length buf

/-- Feed a sequence of raw blocks through the assembler starting from a given
leftover buffer; returns all frames emitted (in order) and the final
leftover. -/
def feedBlocks (fb : Nat) : List Nat → List (List Nat) → List (List Nat) × List Nat
  | leftover, [] => ([], leftover)
  | leftover, b :: bs =>
    ((drainFrames fb (leftover ++ b)).1 ++ (feedBlocks fb (drainFrames fb (leftover ++ b)).2 bs).1,
     (feedBlocks fb (drainFrames fb (leftover ++ b)).2 bs).2)

theorem drainAux_spec (fb : Nat) (hfb : 0 < fb) :
    ∀ (fuel : Nat) (buf : List Nat), buf.length ≤ fuel →
      (drainAux fb fuel buf).1.flatten ++ (drainAux fb fuel buf).2 = buf ∧
      (∀ f ∈ (drainAux fb fuel buf).1, f.length = fb) ∧
      (drainAux fb fuel buf).2.length < fb := by
  intro fuel
  induction fuel with
  | zero =>
    intro buf hlen
    have : buf = [] := List.eq_nil_of_length_eq_zero (Nat.le_zero.mp hlen)
    subst this
    simp [drainAux, hfb]
  | succ n ih =>
    intro buf hlen
    by_cases h : fb ≤ buf.length
    · have hdrop : (buf.drop fb).length ≤ n := by
        simp only [List.length_drop]; omega
      obtain ⟨ih1, ih2, ih3⟩ := ih (buf.drop fb) hdrop
      refine ⟨?_, ?_, ?_⟩
      · simp only [drainAux, if_pos h, List.flatten_cons, List.append_assoc, ih1]
        exact List.take_append_drop fb buf
      · intro f hf
        simp only [drainAux, if_pos h, List.mem_cons] at hf
        rcases hf with rfl | hf
        · exact List.length_take_of_le h
        · exact ih2 f hf
      · simpa only [drainAux, if_pos h] using ih3
    · simp only [drainAux, if_neg h]
      exact ⟨by simp, by simp, by omega⟩

theorem drainFrames_spec (fb : Nat) (hfb : 0 < fb) (buf : List Nat) :
    (drainFrames fb buf).1.flatten ++ (drainFrames fb buf).2 = buf ∧
    (∀ f ∈ (drainFrames fb buf).1, f.length = fb) ∧
    (drainFrames fb buf).2.length < fb :=
  drainAux_spec fb hfb buf.length buf le_rfl

/-- Conservation across a whole block sequence: frames plus final leftover
re-concatenate to the initial leftover plus all input bytes. -/
theorem feedBlocks_concat (fb : Nat) (hfb : 0 < fb) (blocks : List (List Nat))
    (leftover : List Nat) :
    (feedBlocks fb leftover blocks).1.flatten ++ (feedBlocks fb leftover blocks).2 =
      leftover ++ blocks.flatten := by
  induction blocks generalizing leftover with
  | nil => simp [feedBlocks]
  | cons b bs ih =>
    obtain ⟨h1, _, _⟩ := drainFrames_spec fb hfb (leftover ++ b)
    simp only [feedBlocks, List.flatten_append, List.flatten_cons]
    rw [List.append_assoc, ih (drainFrames fb (leftover ++ b)).2]
    rw [← List.append_assoc, h1]
    simp

theorem feedBlocks_frame_lengths (fb : Nat) (hfb : 0 < fb) (blocks : List (List Nat))
    (leftover : List Nat) :
    ∀ f ∈ (feedBlocks fb leftover blocks).1, f.length = fb := by
  induction blocks generalizing leftover with
  | nil => simp [feedBlocks]
  | cons b bs ih =>
    intro f hf
    simp only [feedBlocks, List.mem_append] at hf
    rcases hf with hf | hf
    · exact (drainFrames_spec fb hfb (leftover ++ b)).2.1 f hf
    · exact ih (drainFrames fb (leftover ++ b)).2 f hf

theorem feedBlocks_leftover_short (fb : Nat) (hfb : 0 < fb) (blocks : List (List Nat))
    (leftover : List Nat) (hne : blocks ≠ []) :
    (feedBlocks fb leftover blocks).2.length < fb := by
  induction blocks generalizing leftover with
  | nil => exact absurd rfl hne
  | cons b bs ih =>
    cases bs with
    | nil =>
      simp only [feedBlocks]
      exact (drainFrames_spec fb hfb (leftover ++ b)).2.2
    | cons c cs =>
      simp only [feedBlocks]
      exact ih (drainFrames fb (leftover ++ b)).2 (by simp)

/-- Claim C3: the frame assembler loses and duplicates nothing — the emitted
frames, concatenated, followed by the final leftover equal the concatenation
of all input blocks (starting from any inter-call leftover, preserved
exactly); and when the total input length is a multiple of `frame_bytes`,
exactly `total / frame_bytes` frames come out and the leftover is empty. -/
theorem C3_frame_assembler_conservation (fb : Nat) (blocks : List (List Nat))
    (hfb : 0 < fb) :
    (∀ leftover : List Nat,
      (feedBlocks fb leftover blocks).1.flatten ++ (feedBlocks fb leftover blocks).2 =
        leftover ++ blocks.flatten) ∧
    (fb ∣ blocks.flatten.length →
      (feedBlocks fb [] blocks).1.length = blocks.flatten.length / fb ∧
      (feedBlocks fb [] blocks).2 = []) := by
  refine ⟨fun leftover => feedBlocks_concat fb hfb blocks leftover, fun hdvd => ?_⟩
  have hcat := feedBlocks_concat fb hfb blocks []
  simp only [List.nil_append] at hcat
  have hflatlen : (feedBlocks fb [] blocks).1.flatten.length =
      fb * (feedBlocks fb [] blocks).1.length := by
    have hlens := feedBlocks_frame_lengths fb hfb blocks []
    calc (feedBlocks fb [] blocks).1.flatten.length
        = ((feedBlocks fb [] blocks).1.map List.length).sum := by
          rw [List.length_flatten]
      _ = ((feedBlocks fb [] blocks).1.map (fun _ => fb)).sum := by
          congr 1
          exact List.map_congr_left hlens
      _ = fb * (feedBlocks fb [] blocks).1.length := by
          simp [List.map_const, List.sum_replicate, Nat.mul_comm]
  have hrest : (feedBlocks fb [] blocks).2 = [] := by
    cases blocks with
    | nil => simp [feedBlocks]
    | cons b bs =>
      have hshort := feedBlocks_leftover_short fb hfb (b :: bs) [] (by simp)
      have hlen2 : fb * (feedBlocks fb [] (b :: bs)).1.length +
          (feedBlocks fb [] (b :: bs)).2.length = (b :: bs).flatten.length := by
        have := congrArg List.length hcat
        simpa [List.length_append, hflatlen] using this
      obtain ⟨k, hk⟩ := hdvd
      have hmod : (feedBlocks fb [] (b :: bs)).2.length % fb = 0 := by
        have h0 : (fb * (feedBlocks fb [] (b :: bs)).1.length +
            (feedBlocks fb [] (b :: bs)).2.length) % fb = 0 := by
          rw [hlen2, hk, Nat.mul_mod_right]
        rwa [Nat.mul_add_mod] at h0
      have hz : (feedBlocks fb [] (b :: bs)).2.length = 0 := by
        rwa [Nat.mod_eq_of_lt hshort] at hmod
      exact List.eq_nil_of_length_eq_zero hz
  refine ⟨?_, hrest⟩
  have hlen : fb * (feedBlocks fb [] blocks).1.length = blocks.flatten.length := by
    have := congrArg List.length hcat
    simp only [List.length_append, hrest, List.length_nil, Nat.add_zero] at this
    rw [← hflatlen]
    exact this
  rw [← hlen, Nat.mul_div_cancel_left _ hfb]

theorem C3_frame_assembler_conservation_witness :
    0 < 2 ∧
    ((∀ leftover : List Nat,
      (feedBlocks 2 leftover [[1, 2, 3], [4, 5, 6]]).1.flatten ++
          (feedBlocks 2 leftover [[1, 2, 3], [4, 5, 6]]).2 =
        leftover ++ ([[1, 2, 3], [4, 5, 6]] : List (List Nat)).flatten) ∧
    (2 ∣ ([[1, 2, 3], [4, 5, 6]] : List (List Nat)).flatten.length →
      (feedBlocks 2 [] [[1, 2, 3], [4, 5, 6]]).1.length =
        ([[1, 2, 3], [4, 5, 6]] : List (List Nat)).flatten.length / 2 ∧
      (feedBlocks 2 [] [[1, 2, 3], [4, 5, 6]]).2 = [])) :=
  ⟨by decide, C3_frame_assembler_conservation 2 [[1, 2, 3], [4, 5, 6]] (by decide)⟩

/-! ## Service construction (`STTService.__init__`, lines 22-50)

`frame_bytes = int(self.sample_rate * 2 * self.chunk_ms / 1000)`: on the
valid grid the float division is exact, so `Nat` division embeds it
faithfully; `silence_frames = int(self.silence_ms / self.chunk_ms)`. -/

def frame_bytes (sample_rate chunk_ms : Nat) : Nat :=
  sample_rate * 2 * chunk_ms / 1000

structure STTService where
  sample_rate : Nat
  chunk_ms : Nat
  frame_bytesF : Nat
  silence_frames : Nat
deriving DecidableEq, Repr

/-- Modelled from the spec: the `STTConfig` pydantic model, imported in
`stt.py` as `from config.config import STTConfig`, is not present under
`src/` (only this import and its callers are).  Per spec §7 a non-positive
`silence_ms` is a ConfigError, fatal at construction, so config construction
accepts exactly positive `silence_ms`. -/
def sttConfigOk (silence_ms : Int) : Bool := 0 < silence_ms

/-- Construction of the service: first the config object is built
(spec-modelled validation above), then `STTService.__init__` runs, whose
`assert self.chunk_ms in (10, 20, 30)` is taken from the source.  `none`
models a raised exception. -/
def mkSTTService (sample_rate chunk_ms : Nat) (silence_ms : Int) : Option STTService :=
  if sttConfigOk silence_ms then
    if chunk_ms = 10 ∨ chunk_ms = 20 ∨ chunk_ms = 30 then
      some ⟨sample_rate, chunk_ms, frame_bytes sample_rate chunk_ms,
        silence_ms.toNat / chunk_ms⟩
    else
      none
  else
    none

/-- Claim C4: on the valid grid `chunk_ms ∈ {10,20,30}`,
`sample_rate ∈ {8000,16000,32000,48000}`, the computed `frame_bytes` equals
`sample_rate*2*chunk_ms/1000` with nothing lost to the integer division, and
every frame the assembler produces (hence hands to the classifier) has
exactly `frame_bytes` bytes. -/
theorem C4_frame_bytes_exact (sample_rate chunk_ms : Nat)
    (hc : chunk_ms = 10 ∨ chunk_ms = 20 ∨ chunk_ms = 30)
    (hs : sample_rate = 8000 ∨ sample_rate = 16000 ∨ sample_rate = 32000 ∨
      sample_rate = 48000) :
    frame_bytes sample_rate chunk_ms * 1000 = sample_rate * 2 * chunk_ms ∧
    (∀ (leftover : List Nat) (blocks : List (List Nat)),
      ∀ f ∈ (feedBlocks (frame_bytes sample_rate chunk_ms) leftover blocks).1,
        f.length = frame_bytes sample_rate chunk_ms) := by
  have hpos : 0 < frame_bytes sample_rate chunk_ms := by
    rcases hc with rfl | rfl | rfl <;> rcases hs with rfl | rfl | rfl | rfl <;> decide
  refine ⟨?_, fun leftover blocks =>
    feedBlocks_frame_lengths (frame_bytes sample_rate chunk_ms) hpos blocks leftover⟩
  rcases hc with rfl | rfl | rfl <;> rcases hs with rfl | rfl | rfl | rfl <;> decide

theorem C4_frame_bytes_exact_witness :
    ((30 : Nat) = 10 ∨ (30 : Nat) = 20 ∨ (30 : Nat) = 30) ∧
    (frame_bytes 16000 30 * 1000 = 16000 * 2 * 30 ∧
    (∀ (leftover : List Nat) (blocks : List (List Nat)),
      ∀ f ∈ (feedBlocks (frame_bytes 16000 30) leftover blocks).1,
        f.length = frame_bytes 16000 30)) :=
  ⟨by decide, C4_frame_bytes_exact 16000 30 (by decide) (by decide)⟩

/-- Claim C7: construction of the service fails exactly when the
configuration is invalid — it succeeds iff `chunk_ms ∈ {10,20,30}` and
`silence_ms` is positive (the `silence_ms` half comes from the spec-modelled
`STTConfig` validation, the `chunk_ms` assert from the source). -/
theorem C7_construction_validation (sample_rate chunk_ms : Nat) (silence_ms : Int) :
    (mkSTTService sample_rate chunk_ms silence_ms).isSome = true ↔
      ((chunk_ms = 10 ∨ chunk_ms = 20 ∨ chunk_ms = 30) ∧ 0 < silence_ms) := by
  unfold mkSTTService sttConfigOk
  by_cases h1 : (0 : Int) < silence_ms <;>
    by_cases h2 : chunk_ms = 10 ∨ chunk_ms = 20 ∨ chunk_ms = 30 <;>
      simp [h1, h2]

/-! ## Transcription dispatcher (`transcribe_chunk`, lines 137-160)

The body is one `try` block: `requests.post` (any network error or timeout
raises), `resp.raise_for_status()` (raises exactly for status codes in
400..599), `resp.json()` (raises on a malformed body), and
`result_json.get("text", "")` (raises `AttributeError` when the decoded
JSON is not an object).  Every exception is caught and turned into the
sentinel.  The endpoint's behaviour is modelled by `HttpResult`: `raised`
for an exception inside `requests.post`, otherwise a status code plus
`none` (body that `resp.json()` rejects) or `some` decoded JSON value. -/

inductive JVal where
  | jstr : String → JVal
  | jnum : Int → JVal
  | jbool : Bool → JVal
  | jnull : JVal
  | jarr : List JVal → JVal
  | jobj : List (String × JVal) → JVal

/-- Python `dict.get(key, default)` on a decoded JSON object (keys unique,
first match returned). -/
def jget : List (String × JVal) → String → JVal → JVal
  | [], _, d => d
  | (k, v) :: rest, key, d => if k = key then v else jget rest key d

/-- First value bound to `key`, if any. -/
def lookupKey : List (String × JVal) → String → Option JVal
  | [], _ => none
  | (k, v) :: rest, key => if k = key then some v else lookupKey rest key

def hasKey (fields : List (String × JVal)) (key : String) : Bool :=
  (lookupKey fields key).isSome

inductive HttpResult where
  | raised : HttpResult
  | ok : Nat → Option JVal → HttpResult

def errorSentinel : String := "[ERROR: no transcription]"

/-- Python's `str.strip()` (restricted to ASCII whitespace): drop leading and
trailing whitespace characters. -/
def pyStrip (s : String) : String :=
  ⟨((s.data.dropWhile Char.isWhitespace).reverse.dropWhile Char.isWhitespace).reverse⟩

/-- `STTService.transcribe_chunk`, as a function of the endpoint outcome. -/
def transcribe_chunk : HttpResult → JVal
  | .raised => .jstr errorSentinel
  | .ok status body =>
    if 400 ≤ status ∧ status < 600 then .jstr errorSentinel
    else
      match body with
      | some (.jobj fields) => jget fields "text" (.jstr "")
      | _ => .jstr errorSentinel

theorem jget_of_not_hasKey (fields : List (String × JVal)) (key : String) (d : JVal)
    (h : hasKey fields key = false) : jget fields key d = d := by
  induction fields with
  | nil => rfl
  | cons kv rest ih =>
    obtain ⟨k, v⟩ := kv
    by_cases hk : k = key
    · simp [hasKey, lookupKey, hk] at h
    · simp only [jget, if_neg hk]
      exact ih (by simpa [hasKey, lookupKey, hk] using h)

theorem jget_of_lookupKey (fields : List (String × JVal)) (key : String) (d v : JVal)
    (h : lookupKey fields key = some v) : jget fields key d = v := by
  induction fields with
  | nil => simp [lookupKey] at h
  | cons kv rest ih =>
    obtain ⟨k, w⟩ := kv
    by_cases hk : k = key
    · simp only [lookupKey, if_pos hk, Option.some.injEq] at h
      simp [jget, hk, h]
    · simp only [lookupKey, if_neg hk] at h
      simp only [jget, if_neg hk]
      exact ih h

/-- Claim C5 fails on the code at a concrete endpoint behaviour: a 2xx
response whose body is the well-formed JSON object `{}` (no `text` field)
makes `transcribe_chunk` return the `.get` default `""`, not the sentinel. -/
theorem C5_counterexample :
    transcribe_chunk (.ok 200 (some (.jobj []))) = .jstr "" ∧
    ¬ transcribe_chunk (.ok 200 (some (.jobj []))) = .jstr errorSentinel := by
  constructor
  · rfl
  · intro h
    simp only [transcribe_chunk, errorSentinel] at h
    norm_num at h
    exact absurd (JVal.jstr.inj h) (by decide)

/-- Claim C5, amended: `transcribe_chunk` is total (never raises out of the
pipeline) and returns the sentinel on any exception inside `requests.post`
(network error, timeout), on any status in 400..599, on a malformed JSON
body, and on a well-formed body that is not a JSON object; but a 2xx JSON
object without a `text` field yields the `.get` default `""`, not the
sentinel. -/
theorem C5_error_handling (status : Nat) (body : Option JVal)
    (fields : List (String × JVal)) :
    transcribe_chunk .raised = .jstr errorSentinel ∧
    (400 ≤ status ∧ status < 600 → transcribe_chunk (.ok status body) = .jstr errorSentinel) ∧
    transcribe_chunk (.ok status none) = .jstr errorSentinel ∧
    (¬ (400 ≤ status ∧ status < 600) → hasKey fields "text" = false →
      transcribe_chunk (.ok status (some (.jobj fields))) = .jstr "") := by
    refine ⟨rfl, fun h => ?_, ?_, fun h hkey => ?_⟩
    · simp [transcribe_chunk, h]
    · by_cases h : 400 ≤ status ∧ status < 600 <;> simp [transcribe_chunk, h]
    · simp [transcribe_chunk, h]
      exact jget_of_not_hasKey fields "text" (.jstr "") hkey

theorem C5_error_handling_witness :
    (400 ≤ 500 ∧ 500 < 600) ∧
    (transcribe_chunk .raised = .jstr errorSentinel ∧
    (400 ≤ 500 ∧ 500 < 600 → transcribe_chunk (.ok 500 (some .jnull)) = .jstr errorSentinel) ∧
    transcribe_chunk (.ok 500 none) = .jstr errorSentinel ∧
    (¬ (400 ≤ 500 ∧ 500 < 600) → hasKey [] "text" = false →
      transcribe_chunk (.ok 500 (some (.jobj []))) = .jstr "")) :=
  ⟨by omega, C5_error_handling 500 (some .jnull) []⟩

/-- Claim C6 fails on the code at a concrete input: on a 200 response with
body `{"text": " hello "}` the function returns the raw `" hello "`, not the
trimmed `"hello"` — no trimming happens inside `transcribe_chunk` (the
caller trims only for display). -/
theorem C6_counterexample :
    transcribe_chunk (.ok 200 (some (.jobj [("text", .jstr " hello ")]))) =
      .jstr " hello " ∧
    pyStrip " hello " = "hello" ∧
    ¬ transcribe_chunk (.ok 200 (some (.jobj [("text", .jstr " hello ")]))) =
      .jstr (pyStrip " hello ") := by
  refine ⟨rfl, by decide, ?_⟩
  intro h
  have h2 : (" hello " : String) = pyStrip " hello " := JVal.jstr.inj (by
    calc JVal.jstr " hello "
        = transcribe_chunk (.ok 200 (some (.jobj [("text", .jstr " hello ")]))) := rfl
      _ = .jstr (pyStrip " hello ") := h)
  exact absurd h2 (by decide)

/-- Claim C6, amended: on a successful dispatch — a 2xx response whose body
is a JSON object whose first `text` binding is a string `s` — the function
returns `s` verbatim (no whitespace trimming). -/
theorem C6_success_verbatim (status : Nat) (fields : List (String × JVal)) (s : String)
    (h2xx : 200 ≤ status ∧ status < 300)
    (htext : lookupKey fields "text" = some (.jstr s)) :
    transcribe_chunk (.ok status (some (.jobj fields))) = .jstr s := by
  have hne : ¬ (400 ≤ status ∧ status < 600) := by omega
  simp only [transcribe_chunk, if_neg hne]
  exact jget_of_lookupKey fields "text" (.jstr "") (.jstr s) htext

theorem C6_success_verbatim_witness :
    (200 ≤ 200 ∧ 200 < 300) ∧
    lookupKey [("text", .jstr "hi")] "text" = some (.jstr "hi") ∧
    transcribe_chunk (.ok 200 (some (.jobj [("text", .jstr "hi")]))) = .jstr "hi" :=
  ⟨by omega, by simp [lookupKey],
   C6_success_verbatim 200 [("text", .jstr "hi")] "hi" (by omega) (by simp [lookupKey])⟩

/-! ## Invariants of the segment state machine -/

theorem segStep_idle_inv {α : Type} (F : Nat) (vad : α → Bool) (st : SegState α) (f : α)
    (hinv : st.in_speech = false → st.speech_buffer = [] ∧ st.num_silent_frames = 0)
    (h : (segStep F vad st f).1.in_speech = false) :
    (segStep F vad st f).1.speech_buffer = [] ∧ (segStep F vad st f).1.num_silent_frames = 0 := by
  by_cases hv : vad f
  · rw [segStep_speech F vad st f hv] at h
    simp at h
  · by_cases hsp : st.in_speech
    · simp only [segStep, hv, Bool.false_eq_true, if_false, hsp, if_true] at h ⊢
      by_cases hge : st.num_silent_frames + 1 ≥ F
      · simp [if_pos hge]
      · simp only [if_neg hge] at h
        simp at h
    · have hvf : vad f = false := by simpa using hv
      have hsp' : st.in_speech = false := by simpa using hsp
      rw [segStep_silence_idle F vad st f hvf hsp'] at h ⊢
      exact hinv h

theorem runSeg_idle_inv {α : Type} (F : Nat) (vad : α → Bool) (st : SegState α)
    (frames : List α)
    (hinv : st.in_speech = false → st.speech_buffer = [] ∧ st.num_silent_frames = 0)
    (h : (runSeg F vad st frames).1.in_speech = false) :
    (runSeg F vad st frames).1.speech_buffer = [] ∧
      (runSeg F vad st frames).1.num_silent_frames = 0 := by
  induction frames generalizing st with
  | nil => exact hinv h
  | cons f fs ih =>
    simp only [runSeg] at h ⊢
    exact ih (segStep F vad st f).1 (segStep_idle_inv F vad st f hinv) h

/-- Claim C9: after any processed frame sequence from the initial state,
whenever `in_speech` is `False`, the `speech_buffer` is empty and
`num_silent_frames` is `0` — a new segment always starts from an empty
buffer. -/
theorem C9_idle_empty_buffer {α : Type} (F : Nat) (vad : α → Bool) (frames : List α)
    (h : (runSeg F vad initSegState frames).1.in_speech = false) :
    (runSeg F vad initSegState frames).1.speech_buffer = [] ∧
      (runSeg F vad initSegState frames).1.num_silent_frames = 0 :=
  runSeg_idle_inv F vad initSegState frames (fun _ => ⟨rfl, rfl⟩) h

theorem C9_idle_empty_buffer_witness :
    (runSeg 2 (fun n => decide (10 ≤ n)) initSegState [0, 10, 0, 0]).1.in_speech = false ∧
    ((runSeg 2 (fun n => decide (10 ≤ n)) initSegState [0, 10, 0, 0]).1.speech_buffer = [] ∧
     (runSeg 2 (fun n => decide (10 ≤ n)) initSegState [0, 10, 0, 0]).1.num_silent_frames = 0) :=
  ⟨by decide, C9_idle_empty_buffer 2 (fun n => decide (10 ≤ n)) [0, 10, 0, 0] (by decide)⟩

theorem trailingSilence_append_speech {α : Type} (vad : α → Bool) (buf : List α) (f : α)
    (h : vad f = true) : trailingSilence vad (buf ++ [f]) = 0 := by
  simp [trailingSilence, List.reverse_append, List.takeWhile, h]

theorem trailingSilence_append_silence {α : Type} (vad : α → Bool) (buf : List α) (f : α)
    (h : vad f = false) :
    trailingSilence vad (buf ++ [f]) = trailingSilence vad buf + 1 := by
  simp [trailingSilence, List.reverse_append, List.takeWhile, h]

theorem segStep_silent_inv {α : Type} (F : Nat) (vad : α → Bool) (st : SegState α) (f : α)
    (hinv : st.in_speech = true →
      st.num_silent_frames = trailingSilence vad st.speech_buffer ∧
      (1 ≤ F → st.num_silent_frames < F))
    (h : (segStep F vad st f).1.in_speech = true) :
    (segStep F vad st f).1.num_silent_frames =
      trailingSilence vad (segStep F vad st f).1.speech_buffer ∧
    (1 ≤ F → (segStep F vad st f).1.num_silent_frames < F) := by
  by_cases hv : vad f
  · rw [segStep_speech F vad st f hv] at h ⊢
    exact ⟨(trailingSilence_append_speech vad st.speech_buffer f hv).symm,
      fun hF => hF⟩
  · have hvf : vad f = false := by simpa using hv
    by_cases hsp : st.in_speech
    · simp only [segStep, hvf, Bool.false_eq_true, if_false, hsp, if_true] at h ⊢
      by_cases hge : st.num_silent_frames + 1 ≥ F
      · simp only [if_pos hge] at h
        simp at h
      · simp only [if_neg hge] at h ⊢
        obtain ⟨h1, _⟩ := hinv hsp
        refine ⟨?_, fun _ => by omega⟩
        show st.num_silent_frames + 1 = trailingSilence vad (st.speech_buffer ++ [f])
        rw [trailingSilence_append_silence vad st.speech_buffer f hvf, ← h1]
    · have hsp' : st.in_speech = false := by simpa using hsp
      rw [segStep_silence_idle F vad st f hvf hsp'] at h
      exact absurd h (by simp [hsp'])

theorem runSeg_silent_inv {α : Type} (F : Nat) (vad : α → Bool) (st : SegState α)
    (frames : List α)
    (hinv : st.in_speech = true →
      st.num_silent_frames = trailingSilence vad st.speech_buffer ∧
      (1 ≤ F → st.num_silent_frames < F))
    (h : (runSeg F vad st frames).1.in_speech = true) :
    (runSeg F vad st frames).1.num_silent_frames =
      trailingSilence vad (runSeg F vad st frames).1.speech_buffer ∧
    (1 ≤ F → (runSeg F vad st frames).1.num_silent_frames < F) := by
  induction frames generalizing st with
  | nil => exact hinv h
  | cons f fs ih =>
    simp only [runSeg] at h ⊢
    exact ih (segStep F vad st f).1 (fun _ => segStep_silent_inv F vad st f hinv
      (by assumption)) h

/-- Claim C10: after any processed frame sequence from the initial state,
whenever `in_speech` is `True`, `num_silent_frames` equals the number of
consecutive silence-classified frames at the tail of `speech_buffer`, and —
provided `silence_frames ≥ 1` — it is strictly below the threshold. -/
theorem C10_silent_counter_inv {α : Type} (F : Nat) (vad : α → Bool) (frames : List α)
    (h : (runSeg F vad initSegState frames).1.in_speech = true) :
    (runSeg F vad initSegState frames).1.num_silent_frames =
      trailingSilence vad (runSeg F vad initSegState frames).1.speech_buffer ∧
    (1 ≤ F → (runSeg F vad initSegState frames).1.num_silent_frames < F) :=
  runSeg_silent_inv F vad initSegState frames
    (fun hsp => absurd hsp (by simp [initSegState])) h

theorem C10_silent_counter_inv_witness :
    (runSeg 3 (fun n => decide (10 ≤ n)) initSegState [10, 0]).1.in_speech = true ∧
    ((runSeg 3 (fun n => decide (10 ≤ n)) initSegState [10, 0]).1.num_silent_frames =
      trailingSilence (fun n => decide (10 ≤ n))
        (runSeg 3 (fun n => decide (10 ≤ n)) initSegState [10, 0]).1.speech_buffer ∧
     (1 ≤ 3 → (runSeg 3 (fun n => decide (10 ≤ n)) initSegState [10, 0]).1.num_silent_frames < 3)) :=
  ⟨by decide, C10_silent_counter_inv 3 (fun n => decide (10 ≤ n)) [10, 0] (by decide)⟩

/-! ## WAV encoder (`_convert_pcm_to_wav`, lines 162-173)

The function drives CPython's `wave.Wave_write` over a `BytesIO` with
`nchannels=1`, `sampwidth=2`, `framerate=sample_rate` and writes `pcm_data`.
The bytes `wave` produces (after `_patchheader` on close) are, little-endian:
`RIFF`, `36+len`, `WAVE`, `fmt `, `16`, format `1`, channels `1`,
`framerate`, `framerate*2` (byte rate), `2` (block align), `16` (bits per
sample), `data`, `len`, then the PCM bytes verbatim.  A generic RIFF chunk
walker `findChunk` (not used by the code) locates chunks in the output so
the claim is checked against a parse of the byte stream, not against the
builder's own structure. -/

def u16le (n : Nat) : List Nat := [n % 256, n / 256 % 256]

def u32le (n : Nat) : List Nat :=
  [n % 256, n / 256 % 256, n / 65536 % 256, n / 16777216 % 256]

def readU16leD (bs : List Nat) : Nat := bs.getD 0 0 + 256 * bs.getD 1 0

def readU32leD (bs : List Nat) : Nat :=
  bs.getD 0 0 + 256 * bs.getD 1 0 + 65536 * bs.getD 2 0 + 16777216 * bs.getD 3 0

def riffId : List Nat := [82, 73, 70, 70]
def waveId : List Nat := [87, 65, 86, 69]
def fmtId : List Nat := [102, 109, 116, 32]
def dataId : List Nat := [100, 97, 116, 97]

/-- Payload of the `fmt ` chunk: AudioFormat=1 (PCM), NumChannels=1,
SampleRate, ByteRate, BlockAlign=2, BitsPerSample=16. -/
def fmtPayload (sample_rate : Nat) : List Nat :=
  u16le 1 ++ u16le 1 ++ u32le sample_rate ++ u32le (sample_rate * 2) ++
    u16le 2 ++ u16le 16

/-- `STTService._convert_pcm_to_wav`. -/
def convert_pcm_to_wav (sample_rate : Nat) (pcm : List Nat) : List Nat :=
  riffId ++ u32le (36 + pcm.length) ++ waveId ++
  fmtId ++ u32le 16 ++ fmtPayload sample_rate ++
  dataId ++ u32le pcm.length ++ pcm

/-- Generic RIFF chunk walker: read a 4-byte id and 4-byte little-endian
size, return the payload of the first chunk matching `cid`, else skip it. -/
def findChunk (cid : List Nat) (bs : List Nat) : Option (List Nat) :=
  if h : 8 ≤ bs.length then
    if bs.take 4 = cid then some ((bs.drop 8).take (readU32leD (bs.drop 4)))
    else findChunk cid (bs.drop (8 + readU32leD (bs.drop 4)))
  else none
termination_by bs.length
decreasing_by simp only [List.length_drop]; omega

theorem readU32leD_u32le_append (n : Nat) (rest : List Nat) (h : n < 4294967296) :
    readU32leD (u32le n ++ rest) = n := by
  simp only [u32le, List.cons_append, List.nil_append, readU32leD,
    List.getD_cons_zero, List.getD_cons_succ]
  omega

theorem findChunk_here (cid payload rest : List Nat) (h4 : cid.length = 4)
    (hn : payload.length < 4294967296) :
    findChunk cid (cid ++ u32le payload.length ++ payload ++ rest) = some payload := by
  have hlen8 : 8 ≤ (cid ++ u32le payload.length ++ payload ++ rest).length := by
    simp [u32le, h4]; omega
  rw [findChunk, dif_pos hlen8]
  have htake : (cid ++ u32le payload.length ++ payload ++ rest).take 4 = cid := by
    rw [List.append_assoc, List.append_assoc, ← h4, List.take_left]
  rw [if_pos htake]
  have hdrop4 : (cid ++ u32le payload.length ++ payload ++ rest).drop 4 =
      u32le payload.length ++ (payload ++ rest) := by
    rw [List.append_assoc, List.append_assoc, ← h4, List.drop_left]
  have hdrop8 : (cid ++ u32le payload.length ++ payload ++ rest).drop 8 =
      payload ++ rest := by
    have h8 : (cid ++ u32le payload.length).length = 8 := by simp [u32le, h4]
    rw [List.append_assoc, ← h8, List.drop_left]
  rw [hdrop4, readU32leD_u32le_append payload.length (payload ++ rest) hn, hdrop8,
    List.take_left]

theorem findChunk_skip (cid other payload rest : List Nat) (h4 : other.length = 4)
    (hne : other ≠ cid) (hn : payload.length < 4294967296) :
    findChunk cid (other ++ u32le payload.length ++ payload ++ rest) =
      findChunk cid rest := by
  have hlen8 : 8 ≤ (other ++ u32le payload.length ++ payload ++ rest).length := by
    simp [u32le, h4]; omega
  rw [findChunk, dif_pos hlen8]
  have htake : (other ++ u32le payload.length ++ payload ++ rest).take 4 = other := by
    rw [List.append_assoc, List.append_assoc, ← h4, List.take_left]
  rw [htake, if_neg hne]
  have hdrop4 : (other ++ u32le payload.length ++ payload ++ rest).drop 4 =
      u32le payload.length ++ (payload ++ rest) := by
    rw [List.append_assoc, List.append_assoc, ← h4, List.drop_left]
  rw [hdrop4, readU32leD_u32le_append payload.length (payload ++ rest) hn]
  have hdropAll : (other ++ u32le payload.length ++ payload ++ rest).drop
      (8 + payload.length) = rest := by
    have h8 : (other ++ u32le payload.length ++ payload).length = 8 + payload.length := by
      simp [u32le, h4]; omega
    rw [← h8, List.drop_left]
  rw [hdropAll]

/-- Claim C8: for every PCM byte string, the WAV encoder output starts with
a RIFF/WAVE header and, parsed as RIFF chunks, contains a `fmt ` chunk with
NumChannels=1, SampleRate equal to the configured rate, BitsPerSample=16,
and a `data` chunk whose payload is the input PCM verbatim (hence of exactly
the input length).  The size bounds are those under which CPython's
`struct.pack('<L', ...)` does not raise. -/
theorem C8_wav_encoder (sample_rate : Nat) (pcm : List Nat)
    (hsr : sample_rate < 4294967296) (hlen : pcm.length < 4294967296) :
    (convert_pcm_to_wav sample_rate pcm).take 4 = riffId ∧
    ((convert_pcm_to_wav sample_rate pcm).drop 8).take 4 = waveId ∧
    findChunk fmtId ((convert_pcm_to_wav sample_rate pcm).drop 12) =
      some (fmtPayload sample_rate) ∧
    readU16leD ((fmtPayload sample_rate).drop 2) = 1 ∧
    readU32leD ((fmtPayload sample_rate).drop 4) = sample_rate ∧
    readU16leD ((fmtPayload sample_rate).drop 14) = 16 ∧
    findChunk dataId ((convert_pcm_to_wav sample_rate pcm).drop 12) = some pcm := by
  have hfmtlen : (fmtPayload sample_rate).length = 16 := by
    simp [fmtPayload, u16le, u32le]
  have hA : (convert_pcm_to_wav sample_rate pcm).drop 12 =
      fmtId ++ u32le (fmtPayload sample_rate).length ++ fmtPayload sample_rate ++
        (dataId ++ u32le pcm.length ++ pcm ++ []) := by
    rw [hfmtlen]
    simp [convert_pcm_to_wav, riffId, waveId, fmtId, dataId, u32le, u16le, fmtPayload]
  refine ⟨?_, ?_, ?_, ?_, ?_, ?_, ?_⟩
  · simp [convert_pcm_to_wav, riffId]
  · simp [convert_pcm_to_wav, riffId, waveId, u32le]
  · rw [hA]
    exact findChunk_here fmtId (fmtPayload sample_rate)
      (dataId ++ u32le pcm.length ++ pcm ++ []) rfl (by rw [hfmtlen]; omega)
  · simp [fmtPayload, u16le, u32le, readU16leD]
  · have : (fmtPayload sample_rate).drop 4 =
        u32le sample_rate ++ (u32le (sample_rate * 2) ++ u16le 2 ++ u16le 16) := by
      simp [fmtPayload, u16le, u32le]
    rw [this, readU32leD_u32le_append sample_rate _ hsr]
  · simp [fmtPayload, u16le, u32le, readU16leD]
  · rw [hA, findChunk_skip dataId fmtId (fmtPayload sample_rate) _ rfl (by decide)
      (by rw [hfmtlen]; omega)]
    have := findChunk_here dataId pcm [] rfl hlen
    simpa using this

theorem C8_wav_encoder_witness :
    ((16000 : Nat) < 4294967296 ∧ ([7, 8] : List Nat).length < 4294967296) ∧
    ((convert_pcm_to_wav 16000 [7, 8]).take 4 = riffId ∧
    ((convert_pcm_to_wav 16000 [7, 8]).drop 8).take 4 = waveId ∧
    findChunk fmtId ((convert_pcm_to_wav 16000 [7, 8]).drop 12) =
      some (fmtPayload 16000) ∧
    readU16leD ((fmtPayload 16000).drop 2) = 1 ∧
    readU32leD ((fmtPayload 16000).drop 4) = 16000 ∧
    readU16leD ((fmtPayload 16000).drop 14) = 16 ∧
    findChunk dataId ((convert_pcm_to_wav 16000 [7, 8]).drop 12) = some [7, 8]) :=
  ⟨⟨by omega, by simp⟩, C8_wav_encoder 16000 [7, 8] (by omega) (by simp)⟩

end STT
